import Mathlib

/-!
Shallow embedding of the utility module of the NCSN repository
(`code/utils.py`) and verification of its specified properties.

Modelling conventions:
* A checkpoint mapping (a Python `dict` with string keys) is an association
  list `List (String × V)`; `dict.get(k, None)` is `List.lookup k`, and
  `dict[k]` (which raises `KeyError` on a missing key) is modelled by
  returning `Option.none` from the enclosing function.
* Tensors are lists of rationals (`List ℚ`), images are lists of rows
  (`List (List ℚ)`); float arithmetic is idealised as exact rational
  arithmetic.  `1e-4` is the rational `1/10000`.
* Functions that can signal a Python assertion failure or `KeyError`
  return `Option`; `get_sigmas`, which raises `NotImplementedError` on an
  unsupported distribution, returns `Except String`.
* Random noise (`torch.randn_like`) is an explicit argument, so statements
  quantify over every realization of the noise.
-/

namespace NCSN

/-- Embedding of `save_model` (utils.py lines 9-24): builds the checkpoint
mapping with the mandatory `model` entry (the model's state dict) and one
entry per optional argument that is not `None`. Writing the mapping to disk
and reading it back (`torch.save`/`torch.load`) is modelled as the identity
on the mapping. -/
def save_model (V : Type) (model : V)
    (optimizer replay_buffer discriminator optimizer_d : Option V) :
    List (String × V) :=
  let save_dict := [("model", model)]
  let save_dict := match optimizer with
    | none => save_dict
    | some o => save_dict ++ [("optimizer", o)]
  let save_dict := match replay_buffer with
    | none => save_dict
    | some r => save_dict ++ [("replay_buffer", r)]
  let save_dict := match discriminator with
    | none => save_dict
    | some d => save_dict ++ [("discriminator", d)]
  let save_dict := match optimizer_d with
    | none => save_dict
    | some od => save_dict ++ [("optimizer_d", od)]
  save_dict

/-- Embedding of `load_model` (utils.py lines 27-35): `checkpoint['model']`
raises `KeyError` when the key is absent (modelled as `none`); the four
optional fields use `checkpoint.get(key, None)` (modelled as
`List.lookup`). -/
def load_model (V : Type) (checkpoint : List (String × V)) :
    Option (V × Option V × Option V × Option V × Option V) :=
  match checkpoint.lookup "model" with
  | none => none
  | some m =>
      some (m,
            checkpoint.lookup "optimizer",
            checkpoint.lookup "replay_buffer",
            checkpoint.lookup "discriminator",
            checkpoint.lookup "optimizer_d")

/-- A key is absent from an association list iff `lookup` returns `none`. -/
theorem lookup_eq_none_of_not_mem {V : Type} (c : List (String × V)) (k : String)
    (h : k ∉ c.map Prod.fst) : c.lookup k = none := by
  induction c with
  | nil => rfl
  | cons p rest ih =>
      cases p with
      | mk a b =>
          simp only [List.map_cons, List.mem_cons, not_or] at h
          have hk : (k == a) = false := beq_eq_false_iff_ne.mpr h.1
          simp [List.lookup, hk, ih h.2]

/-- If a key is present in an association list then `lookup` finds a value. -/
theorem lookup_isSome_of_mem {V : Type} (c : List (String × V)) (k : String)
    (h : k ∈ c.map Prod.fst) : ∃ v, c.lookup k = some v := by
  induction c with
  | nil => simp at h
  | cons p rest ih =>
      cases p with
      | mk a b =>
          by_cases hk : k = a
          · subst hk
            exact ⟨b, by simp [List.lookup]⟩
          · simp only [List.map_cons, List.mem_cons] at h
            rcases h with h | h
            · exact absurd h hk
            · obtain ⟨v, hv⟩ := ih h
              have hba : (k == a) = false := beq_eq_false_iff_ne.mpr hk
              exact ⟨v, by simp [List.lookup, hba, hv]⟩

/-- C3: for every model state and every subset of the optional arguments,
`save_model` followed by `load_model` on the same path returns the model
state that was saved and the absent-value marker `none` for every optional
field that was not supplied (and the supplied value for each one that
was). -/
theorem c3_save_then_load_roundtrip (V : Type) (m : V)
    (o rb d od : Option V) :
    load_model V (save_model V m o rb d od) = some (m, o, rb, d, od) := by
  cases o <;> cases rb <;> cases d <;> cases od <;> rfl

/-- C2 counterexample: on a checkpoint mapping that lacks the `model` key,
`load_model` does not return a five-field tuple with `none` substituted for
the model; it signals a `KeyError` (modelled as `none`). -/
theorem c2_counterexample :
    load_model ℕ [("optimizer", 7)] = none := rfl

/-- C2 (amended): for every checkpoint mapping that contains the `model`
key, `load_model` returns all five fields, substituting `none` for every
optional key not present in the mapping and a stored value for every key
that is present; when the `model` key itself is absent, `load_model`
signals a `KeyError` instead. -/
theorem c2_load_model_absent_keys (V : Type) (c : List (String × V))
    (h : "model" ∈ c.map Prod.fst) :
    ∃ m o rb d od, load_model V c = some (m, o, rb, d, od) ∧
      ("optimizer" ∉ c.map Prod.fst → o = none) ∧
      ("replay_buffer" ∉ c.map Prod.fst → rb = none) ∧
      ("discriminator" ∉ c.map Prod.fst → d = none) ∧
      ("optimizer_d" ∉ c.map Prod.fst → od = none) ∧
      (∀ c2 : List (String × V), "model" ∉ c2.map Prod.fst →
        load_model V c2 = none) := by
  obtain ⟨m, hm⟩ := lookup_isSome_of_mem c "model" h
  refine ⟨m, c.lookup "optimizer", c.lookup "replay_buffer",
    c.lookup "discriminator", c.lookup "optimizer_d", ?_, ?_, ?_, ?_, ?_, ?_⟩
  · simp [load_model, hm]
  · exact fun hk => lookup_eq_none_of_not_mem c _ hk
  · exact fun hk => lookup_eq_none_of_not_mem c _ hk
  · exact fun hk => lookup_eq_none_of_not_mem c _ hk
  · exact fun hk => lookup_eq_none_of_not_mem c _ hk
  · intro c2 hk
    have := lookup_eq_none_of_not_mem c2 "model" hk
    simp [load_model, this]

/-- C2 witness: the amended statement instantiated on a concrete checkpoint
holding only the `model` entry. -/
theorem c2_load_model_absent_keys_witness :
    ∃ m o rb d od,
      load_model ℕ [("model", 5)] = some (m, o, rb, d, od) ∧
      ("optimizer" ∉ ([("model", 5)] : List (String × ℕ)).map Prod.fst → o = none) ∧
      ("replay_buffer" ∉ ([("model", 5)] : List (String × ℕ)).map Prod.fst → rb = none) ∧
      ("discriminator" ∉ ([("model", 5)] : List (String × ℕ)).map Prod.fst → d = none) ∧
      ("optimizer_d" ∉ ([("model", 5)] : List (String × ℕ)).map Prod.fst → od = none) ∧
      (∀ c2 : List (String × ℕ), "model" ∉ c2.map Prod.fst →
        load_model ℕ c2 = none) :=
  c2_load_model_absent_keys ℕ [("model", 5)] (by decide)

/-- Minimum of a tensor's entries (`torch.min`); `0` on the empty tensor,
which PyTorch rejects anyway. -/
def minL : List ℚ → ℚ
  | [] => 0
  | [a] => a
  | a :: b :: rest => min a (minL (b :: rest))

/-- Maximum of a tensor's entries (`torch.max`); `0` on the empty tensor. -/
def maxL : List ℚ → ℚ
  | [] => 0
  | [a] => a
  | a :: b :: rest => max a (maxL (b :: rest))

@[simp] theorem minL_cons_cons (x y : ℚ) (l : List ℚ) :
    minL (x :: y :: l) = min x (minL (y :: l)) := rfl

@[simp] theorem maxL_cons_cons (x y : ℚ) (l : List ℚ) :
    maxL (x :: y :: l) = max x (maxL (y :: l)) := rfl

theorem min_add_right (p q c : ℚ) : min (p + c) (q + c) = min p q + c := by
  rcases le_total p q with h | h
  · rw [min_eq_left h, min_eq_left (add_le_add_right h c)]
  · rw [min_eq_right h, min_eq_right (add_le_add_right h c)]

theorem max_add_right (p q c : ℚ) : max (p + c) (q + c) = max p q + c := by
  rcases le_total p q with h | h
  · rw [max_eq_right h, max_eq_right (add_le_add_right h c)]
  · rw [max_eq_left h, max_eq_left (add_le_add_right h c)]

/-- Mapping a monotone affine function over a tensor maps its minimum. -/
theorem minL_map_affine (a b : ℚ) (ha : 0 ≤ a) (x : List ℚ) (hx : x ≠ []) :
    minL (x.map (fun v => a * v + b)) = a * minL x + b := by
  induction x with
  | nil => exact absurd rfl hx
  | cons v rest ih =>
      cases rest with
      | nil => simp [minL]
      | cons w r =>
          have ih2 := ih (by simp)
          simp only [List.map_cons] at ih2 ⊢
          rw [minL_cons_cons, minL_cons_cons, ih2,
            mul_min_of_nonneg _ _ ha, min_add_right]

/-- Mapping a monotone affine function over a tensor maps its maximum. -/
theorem maxL_map_affine (a b : ℚ) (ha : 0 ≤ a) (x : List ℚ) (hx : x ≠ []) :
    maxL (x.map (fun v => a * v + b)) = a * maxL x + b := by
  induction x with
  | nil => exact absurd rfl hx
  | cons v rest ih =>
      cases rest with
      | nil => simp [maxL]
      | cons w r =>
          have ih2 := ih (by simp)
          simp only [List.map_cons] at ih2 ⊢
          rw [maxL_cons_cons, maxL_cons_cons, ih2,
            mul_max_of_nonneg _ _ ha, max_add_right]

/-- Embedding of `rescale` (utils.py lines 38-52): asserts `lo < hi`
(modelled as `none` on failure), then recenters the tensor to zero, scales
by the ratio of widths, and shifts to the new center.  In the embedding
division by zero yields `0` (in the source it would produce `inf`/`nan`);
the divisor is examined separately for the constant-input claim. -/
def rescale (x : List ℚ) (lo hi : ℚ) : Option (List ℚ) :=
  if lo < hi then
    let old_width := maxL x - minL x
    let old_center := minL x + old_width / 2
    let new_width := hi - lo
    let new_center := lo + new_width / 2
    some (x.map (fun v => (v - old_center) * (new_width / old_width) + new_center))
  else none

/-- C4: for every non-constant input tensor and every `lo < hi`, the output
of `rescale` has minimum `lo` and maximum `hi`. -/
theorem c4_rescale_min_max (x : List ℚ) (lo hi : ℚ) (hne : x ≠ [])
    (hnc : minL x < maxL x) (hlh : lo < hi) :
    ∃ y, rescale x lo hi = some y ∧ minL y = lo ∧ maxL y = hi := by
  have hw0 : maxL x - minL x ≠ 0 := ne_of_gt (sub_pos.mpr hnc)
  have ha : 0 ≤ (hi - lo) / (maxL x - minL x) :=
    le_of_lt (div_pos (sub_pos.mpr hlh) (sub_pos.mpr hnc))
  have hfun : (fun v : ℚ =>
      (v - (minL x + (maxL x - minL x) / 2)) * ((hi - lo) / (maxL x - minL x))
        + (lo + (hi - lo) / 2)) =
      (fun v : ℚ => ((hi - lo) / (maxL x - minL x)) * v +
        ((lo + (hi - lo) / 2) -
          ((hi - lo) / (maxL x - minL x)) * (minL x + (maxL x - minL x) / 2))) :=
    funext fun v => by ring
  refine ⟨x.map (fun v =>
      (v - (minL x + (maxL x - minL x) / 2)) * ((hi - lo) / (maxL x - minL x))
        + (lo + (hi - lo) / 2)), by simp [rescale, hlh], ?_, ?_⟩
  · rw [hfun, minL_map_affine _ _ ha x hne]
    field_simp
    ring
  · rw [hfun, maxL_map_affine _ _ ha x hne]
    field_simp
    ring

/-- C4 witness: `rescale [0, 2] 3 5` succeeds with minimum `3` and maximum
`5`. -/
theorem c4_rescale_min_max_witness :
    ∃ y, rescale [0, 2] 3 5 = some y ∧ minL y = 3 ∧ maxL y = 5 :=
  c4_rescale_min_max [0, 2] 3 5 (by decide) (by decide) (by decide)

/-- C5: `rescale` signals an assertion failure (modelled as `none`) exactly
when `lo ≥ hi`; when `lo < hi` it returns a value. -/
theorem c5_rescale_assertion (x : List ℚ) (lo hi : ℚ) :
    rescale x lo hi = none ↔ hi ≤ lo := by
  rw [rescale]
  split_ifs with h
  · simp [not_le.mpr h]
  · simp [not_lt.mp h]

/-- C8: `rescale` divides by the input's value width with no guard: on a
constant-valued input the divisor `max(x) - min(x)` is `0` and the function
still proceeds (no failure is signalled); under division-by-zero semantics
the scaling step collapses every entry to the target center, losing the
input — the division is meaningful only for non-constant inputs. -/
theorem c8_rescale_constant_divides_by_zero (x : List ℚ) (lo hi : ℚ)
    (hconst : maxL x = minL x) (hlh : lo < hi) :
    maxL x - minL x = 0 ∧
      rescale x lo hi = some (x.map fun _ => lo + (hi - lo) / 2) := by
  have hw : maxL x - minL x = 0 := by rw [hconst]; ring
  refine ⟨hw, ?_⟩
  simp [rescale, hlh, hw]

/-- C8 witness: on the constant tensor `[2, 2]` the divisor is `0` and
`rescale` still returns a (collapsed) result. -/
theorem c8_rescale_constant_divides_by_zero_witness :
    maxL [2, 2] - minL [2, 2] = 0 ∧
      rescale [2, 2] 0 1 = some ([2, 2].map fun _ => 0 + (1 - 0) / 2) :=
  c8_rescale_constant_divides_by_zero [2, 2] 0 1 (by decide) (by decide)

/-- `torch.zeros_like(x)`: a tensor of zeros of the same shape as `x`. -/
def zeros_like (x : List (List ℚ)) : List (List ℚ) :=
  x.map (fun row => row.map (fun _ => 0))

/-- `torch.arange(cur, stop, step=2)`: the indices `cur, cur+2, ...`
strictly below `stop`. -/
def arangeTwo (cur stop : ℕ) : List ℕ :=
  if h : cur < stop then cur :: arangeTwo (cur + 2) stop else []
termination_by stop - cur
decreasing_by omega

/-- Row-indexed assignment `mask[rows satisfying P, :] = 1`, walking the
rows from index `j`. -/
def assignRows (P : ℕ → Bool) : ℕ → List (List ℚ) → List (List ℚ)
  | _, [] => []
  | j, row :: rest =>
      (if P j then row.map (fun _ => 1) else row) :: assignRows P (j + 1) rest

/-- The mask built by `corruption` (utils.py lines 57-63): zeros like the
input, then rows `0, 2, 4, ...` set to `1` for mode `ebm`
(`mask[..., torch.arange(0, H, step=2), :] = 1`), or rows below `H // 2`
set to `1` for mode `flow` (`mask[..., :H//2, :] = 1`). -/
def corruption_mask (x : List (List ℚ)) (type' : String) : List (List ℚ) :=
  let mask := zeros_like x
  if type' = "ebm" then
    assignRows (fun i => (arangeTwo 0 mask.length).contains i) 0 mask
  else if type' = "flow" then
    assignRows (fun i => decide (i < mask.length / 2)) 0 mask
  else mask

/-- `torch.clamp(v, lo, hi) = min(max(v, lo), hi)`. -/
def clamp (v lo hi : ℚ) : ℚ := min (max v lo) hi

/-- Elementwise combination of three equally shaped rows. -/
def elemwise3 (f : ℚ → ℚ → ℚ → ℚ) : List ℚ → List ℚ → List ℚ → List ℚ
  | a :: xs, b :: ys, c :: zs => f a b c :: elemwise3 f xs ys zs
  | _, _, _ => []

/-- Elementwise combination of three equally shaped images. -/
def elemwise3D (f : ℚ → ℚ → ℚ → ℚ) :
    List (List ℚ) → List (List ℚ) → List (List ℚ) → List (List ℚ)
  | a :: xs, b :: ys, c :: zs => elemwise3 f a b c :: elemwise3D f xs ys zs
  | _, _, _ => []

/-- Embedding of `corruption` (utils.py lines 55-67): asserts the mode is
`ebm` or `flow` (modelled as `none` on failure), builds the visibility
mask, forms `x * mask + (1 - mask) * noise_scale * noise` where `noise` is
the realization of `torch.randn_like(x)` passed explicitly, clamps to
`[1e-4, 1 - 1e-4]`, and returns the corrupted tensor with the mask. -/
def corruption (x noise : List (List ℚ)) (type' : String) (noise_scale : ℚ) :
    Option (List (List ℚ) × List (List ℚ)) :=
  if type' = "ebm" ∨ type' = "flow" then
    let mask := corruption_mask x type'
    let broken_data := elemwise3D
      (fun xv mv nv => xv * mv + (1 - mv) * noise_scale * nv) x mask noise
    let broken_data := broken_data.map (fun row =>
      row.map (fun v => clamp v (1 / 10000) (1 - 1 / 10000)))
    some (broken_data, mask)
  else none

theorem mem_arangeTwo (i : ℕ) :
    ∀ n c stop, stop - c ≤ n →
      (i ∈ arangeTwo c stop ↔ c ≤ i ∧ i < stop ∧ (i - c) % 2 = 0) := by
  intro n
  induction n with
  | zero =>
      intro c stop hn
      rw [arangeTwo]
      have : ¬ c < stop := by omega
      simp only [this, dite_false, List.not_mem_nil, false_iff]
      omega
  | succ n ih =>
      intro c stop hn
      rw [arangeTwo]
      by_cases hc : c < stop
      · have ih2 := ih (c + 2) stop (by omega)
        simp only [hc, dite_true, List.mem_cons, ih2]
        omega
      · simp only [hc, dite_false, List.not_mem_nil, false_iff]
        omega

theorem getD_cons_zero (a : List ℚ) (t : List (List ℚ)) :
    (a :: t).getD 0 [] = a := rfl

theorem getD_cons_succ (a : List ℚ) (t : List (List ℚ)) (k : ℕ) :
    (a :: t).getD (k + 1) [] = t.getD k [] := rfl

theorem assignRows_length (P : ℕ → Bool) (j : ℕ) (m : List (List ℚ)) :
    (assignRows P j m).length = m.length := by
  induction m generalizing j with
  | nil => rfl
  | cons row rest ih => simp [assignRows, ih]

theorem assignRows_getD (P : ℕ → Bool) (m : List (List ℚ)) (i j : ℕ)
    (h : i < m.length) :
    (assignRows P j m).getD i [] =
      if P (j + i) then (m.getD i []).map (fun _ => (1:ℚ))
      else m.getD i [] := by
  induction m generalizing i j with
  | nil => simp at h
  | cons row rest ih =>
      cases i with
      | zero => simp [assignRows, getD_cons_zero]
      | succ k =>
          have hk : k < rest.length := by simpa using h
          have := ih k (j + 1) hk
          have harith : j + 1 + k = j + (k + 1) := by omega
          simpa [assignRows, getD_cons_succ, harith] using this

theorem zeros_like_length (x : List (List ℚ)) :
    (zeros_like x).length = x.length := by
  simp [zeros_like]

theorem zeros_like_getD (x : List (List ℚ)) (i : ℕ) (h : i < x.length) :
    (zeros_like x).getD i [] = (x.getD i []).map (fun _ => (0:ℚ)) := by
  induction x generalizing i with
  | nil => simp at h
  | cons r rest ih =>
      cases i with
      | zero => rfl
      | succ k =>
          have hk : k < rest.length := by simpa using h
          simpa [zeros_like, getD_cons_succ] using ih k hk

theorem corruption_mask_ebm (x : List (List ℚ)) :
    corruption_mask x "ebm" =
      assignRows (fun i => (arangeTwo 0 (zeros_like x).length).contains i) 0
        (zeros_like x) := by
  simp [corruption_mask]

theorem corruption_mask_flow (x : List (List ℚ)) :
    corruption_mask x "flow" =
      assignRows (fun i => decide (i < (zeros_like x).length / 2)) 0
        (zeros_like x) := by
  simp [corruption_mask]

/-- The mask returned by `corruption` is the mask built from the shape and
the mode, whatever the noise and the scale. -/
theorem corruption_some_mask (x noise : List (List ℚ)) (t : String) (s : ℚ)
    (b m : List (List ℚ)) (h : corruption x noise t s = some (b, m)) :
    m = corruption_mask x t := by
  simp only [corruption] at h
  split_ifs at h with hv
  rw [Option.some.injEq, Prod.mk.injEq] at h
  exact h.2.symm

theorem ebm_mask_rows (x : List (List ℚ)) (i : ℕ) (h : i < x.length) :
    (corruption_mask x "ebm").length = x.length ∧
    (corruption_mask x "ebm").getD i [] =
      (if i % 2 = 0 then (x.getD i []).map (fun _ => (1:ℚ))
       else (x.getD i []).map (fun _ => (0:ℚ))) := by
  have hlen : (zeros_like x).length = x.length := zeros_like_length x
  constructor
  · rw [corruption_mask_ebm, assignRows_length, hlen]
  · rw [corruption_mask_ebm,
      assignRows_getD _ _ i 0 (by rw [hlen]; exact h)]
    rw [Nat.zero_add, zeros_like_getD x i h]
    have hmem : i ∈ arangeTwo 0 (zeros_like x).length ↔
        0 ≤ i ∧ i < (zeros_like x).length ∧ (i - 0) % 2 = 0 :=
      mem_arangeTwo i (zeros_like x).length 0 (zeros_like x).length (by omega)
    by_cases hpar : i % 2 = 0
    · have hc : (arangeTwo 0 (zeros_like x).length).contains i = true := by
        simp only [List.elem_eq_mem, decide_eq_true_eq]
        exact hmem.mpr ⟨Nat.zero_le i, by rw [hlen]; exact h, by simpa using hpar⟩
      rw [hc, if_pos rfl, if_pos hpar, List.map_map]
      rfl
    · have hc : (arangeTwo 0 (zeros_like x).length).contains i = false := by
        simp only [List.elem_eq_mem, decide_eq_false_iff_not]
        intro hmem2
        exact hpar (by simpa using (hmem.mp hmem2).2.2)
      rw [hc, if_neg (by simp), if_neg hpar]

/-- C6: for every image tensor, the mask returned by `corruption` in mode
`ebm` sets exactly the even-indexed rows to all ones and the odd-indexed
rows to all zeros, with one row per input row. -/
theorem c6_corruption_ebm_mask (x noise : List (List ℚ)) (s : ℚ)
    (b m : List (List ℚ)) (hc : corruption x noise "ebm" s = some (b, m))
    (i : ℕ) (h : i < x.length) :
    m.length = x.length ∧
    m.getD i [] =
      (if i % 2 = 0 then (x.getD i []).map (fun _ => (1:ℚ))
       else (x.getD i []).map (fun _ => (0:ℚ))) := by
  obtain rfl : m = corruption_mask x "ebm" :=
    corruption_some_mask x noise "ebm" s b m hc
  exact ebm_mask_rows x i h

theorem arangeTwo_zero_two : arangeTwo 0 2 = [0] := by
  rw [arangeTwo, dif_pos (by norm_num), arangeTwo, dif_neg (by norm_num)]

/-- C6 witness: on a 2×1 input the `ebm` mask returned by `corruption` has
rows `[1]`, `[0]`; row `1` is odd, hence all zeros. -/
theorem c6_corruption_ebm_mask_witness :
    ([[(1:ℚ)], [0]] : List (List ℚ)).length =
      ([[(1:ℚ)], [2]] : List (List ℚ)).length ∧
    ([[(1:ℚ)], [0]] : List (List ℚ)).getD 1 [] =
      (if 1 % 2 = 0
       then (([[(1:ℚ)], [2]] : List (List ℚ)).getD 1 []).map (fun _ => (1:ℚ))
       else (([[(1:ℚ)], [2]] : List (List ℚ)).getD 1 []).map (fun _ => (0:ℚ))) :=
  c6_corruption_ebm_mask [[1], [2]] [[0], [0]] (3/10)
    [[9999/10000], [1/10000]] [[1], [0]]
    (by norm_num [corruption, corruption_mask, zeros_like, assignRows,
      elemwise3D, elemwise3, clamp, min_def, max_def, arangeTwo_zero_two])
    1 (by decide)

/-- C1 counterexample: on a 4×4 all-ones input (with zero noise) the mask
returned by `corruption` in mode `flow` has rows `[1,1,0,0]` (top half
ones), not `[0,0,1,1]` as the claim states. -/
theorem c1_counterexample :
    corruption [[1, 1, 1, 1], [1, 1, 1, 1], [1, 1, 1, 1], [1, 1, 1, 1]]
        [[0, 0, 0, 0], [0, 0, 0, 0], [0, 0, 0, 0], [0, 0, 0, 0]] "flow" (3/10) =
      some ([[9999/10000, 9999/10000, 9999/10000, 9999/10000],
             [9999/10000, 9999/10000, 9999/10000, 9999/10000],
             [1/10000, 1/10000, 1/10000, 1/10000],
             [1/10000, 1/10000, 1/10000, 1/10000]],
            [[1, 1, 1, 1], [1, 1, 1, 1], [0, 0, 0, 0], [0, 0, 0, 0]]) ∧
    ([[1, 1, 1, 1], [1, 1, 1, 1], [0, 0, 0, 0], [0, 0, 0, 0]] : List (List ℚ)) ≠
      [[0, 0, 0, 0], [0, 0, 0, 0], [1, 1, 1, 1], [1, 1, 1, 1]] := by
  constructor
  · norm_num [corruption, corruption_mask, zeros_like, assignRows,
      elemwise3D, elemwise3, clamp, min_def, max_def]
    exact fun hcontr => absurd hcontr (by decide)
  · decide

theorem flow_mask_rows (x : List (List ℚ)) (i : ℕ) (h : i < x.length) :
    (corruption_mask x "flow").length = x.length ∧
    (corruption_mask x "flow").getD i [] =
      (if i < x.length / 2 then (x.getD i []).map (fun _ => (1:ℚ))
       else (x.getD i []).map (fun _ => (0:ℚ))) := by
  have hlen : (zeros_like x).length = x.length := zeros_like_length x
  constructor
  · rw [corruption_mask_flow, assignRows_length, hlen]
  · rw [corruption_mask_flow,
      assignRows_getD _ _ i 0 (by rw [hlen]; exact h)]
    rw [Nat.zero_add, zeros_like_getD x i h, hlen]
    by_cases hlt : i < x.length / 2
    · rw [decide_eq_true hlt, if_pos rfl, if_pos hlt, List.map_map]
      rfl
    · rw [decide_eq_false hlt, if_neg (by simp), if_neg hlt]

/-- C1 (amended): the mask returned by `corruption` in mode `flow` sets the
top half of the rows (indices below `H // 2`) to all ones and the bottom
half to all zeros; on a 4×4 input the rows are `[1,1,0,0]`, so the upper
half of the image is the visible region. -/
theorem c1_corruption_flow_mask (x noise : List (List ℚ)) (s : ℚ)
    (b m : List (List ℚ)) (hc : corruption x noise "flow" s = some (b, m))
    (i : ℕ) (h : i < x.length) :
    m.length = x.length ∧
    m.getD i [] =
      (if i < x.length / 2 then (x.getD i []).map (fun _ => (1:ℚ))
       else (x.getD i []).map (fun _ => (0:ℚ))) := by
  obtain rfl : m = corruption_mask x "flow" :=
    corruption_some_mask x noise "flow" s b m hc
  exact flow_mask_rows x i h

/-- C1 witness: the amended statement instantiated on a 2×1 input at row
`1`, which lies in the all-zero bottom half. -/
theorem c1_corruption_flow_mask_witness :
    ([[(1:ℚ)], [0]] : List (List ℚ)).length =
      ([[(2:ℚ)], [3]] : List (List ℚ)).length ∧
    ([[(1:ℚ)], [0]] : List (List ℚ)).getD 1 [] =
      (if 1 < ([[(2:ℚ)], [3]] : List (List ℚ)).length / 2
       then (([[(2:ℚ)], [3]] : List (List ℚ)).getD 1 []).map (fun _ => (1:ℚ))
       else (([[(2:ℚ)], [3]] : List (List ℚ)).getD 1 []).map (fun _ => (0:ℚ))) :=
  c1_corruption_flow_mask [[2], [3]] [[0], [0]] (3/10)
    [[9999/10000], [1/10000]] [[1], [0]]
    (by norm_num [corruption, corruption_mask, zeros_like, assignRows,
        elemwise3D, elemwise3, clamp, min_def, max_def]
        exact fun hcontr => absurd hcontr (by decide))
    1 (by decide)

theorem clamp_bounds (v : ℚ) :
    1 / 10000 ≤ clamp v (1 / 10000) (1 - 1 / 10000) ∧
      clamp v (1 / 10000) (1 - 1 / 10000) ≤ 1 - 1 / 10000 :=
  ⟨le_min (le_max_right _ _) (by norm_num), min_le_right _ _⟩

/-- C7: for every input, every valid mode, and every realization of the
noise, every element of the corrupted tensor returned by `corruption` lies
in `[1e-4, 1 - 1e-4]`. -/
theorem c7_corruption_output_in_range (x noise : List (List ℚ)) (t : String)
    (s : ℚ) (broken mask : List (List ℚ))
    (h : corruption x noise t s = some (broken, mask)) :
    ∀ row ∈ broken, ∀ v ∈ row, 1 / 10000 ≤ v ∧ v ≤ 1 - 1 / 10000 := by
  simp only [corruption] at h
  split_ifs at h with hv
  · rw [Option.some.injEq, Prod.mk.injEq] at h
    obtain ⟨h1, h2⟩ := h
    subst h1
    intro row hrow v hvv
    obtain ⟨r0, hr0, rfl⟩ := List.mem_map.mp hrow
    obtain ⟨u, hu, rfl⟩ := List.mem_map.mp hvv
    exact clamp_bounds u

/-- C7 witness: with mode `flow`, a concrete 2×1 input and zero noise, the
corrupted tensor is `[[1/2], [1/10000]]` and its entry `1/2` is in range. -/
theorem c7_corruption_output_in_range_witness :
    1 / 10000 ≤ (1:ℚ)/2 ∧ (1:ℚ)/2 ≤ 1 - 1 / 10000 :=
  c7_corruption_output_in_range [[(1:ℚ)/2], [1/3]] [[0], [0]] "flow" (3/10)
    [[(1:ℚ)/2], [1/10000]] [[1], [0]]
    (by norm_num [corruption, corruption_mask, zeros_like, assignRows,
        elemwise3D, elemwise3, clamp, min_def, max_def]
        exact fun hcontr => absurd hcontr (by decide))
    [(1:ℚ)/2] (List.mem_cons_self _ _) ((1:ℚ)/2) (List.mem_singleton.mpr rfl)

theorem map_const_replicate (r : List ℚ) (c : ℚ) :
    r.map (fun _ => c) = List.replicate r.length c := by
  induction r with
  | nil => rfl
  | cons a t ih => simp [List.replicate_succ, ih]

/-- `zeros_like` depends only on the shape of its argument. -/
theorem zeros_like_eq_shape (x : List (List ℚ)) :
    zeros_like x = (x.map List.length).map (fun n => List.replicate n (0:ℚ)) := by
  induction x with
  | nil => rfl
  | cons r xs ih =>
      simp only [zeros_like, List.map_cons] at ih ⊢
      rw [map_const_replicate, ih]

theorem corruption_mask_eq_of_shape (x y : List (List ℚ)) (t : String)
    (h : x.map List.length = y.map List.length) :
    corruption_mask x t = corruption_mask y t := by
  have hz : zeros_like x = zeros_like y := by
    rw [zeros_like_eq_shape, zeros_like_eq_shape, h]
  unfold corruption_mask
  rw [hz]

/-- C10: on inputs of the same shape and the same valid mode, `corruption`
returns the very same mask, whatever the pixel values, the noise
realizations, and the noise scales are: the mask depends only on the shape
and the mode. -/
theorem c10_corruption_mask_shape_only (x y nx ny : List (List ℚ))
    (s1 s2 : ℚ) (t : String) (ht : t = "ebm" ∨ t = "flow")
    (hshape : x.map List.length = y.map List.length) :
    ∃ bx m b2, corruption x nx t s1 = some (bx, m) ∧
      corruption y ny t s2 = some (b2, m) := by
  have hmask := corruption_mask_eq_of_shape x y t hshape
  refine ⟨(elemwise3D (fun xv mv nv => xv * mv + (1 - mv) * s1 * nv) x
      (corruption_mask x t) nx).map
        (fun row => row.map (fun v => clamp v (1 / 10000) (1 - 1 / 10000))),
    corruption_mask x t,
    (elemwise3D (fun xv mv nv => xv * mv + (1 - mv) * s2 * nv) y
      (corruption_mask y t) ny).map
        (fun row => row.map (fun v => clamp v (1 / 10000) (1 - 1 / 10000))),
    ?_, ?_⟩
  · simp only [corruption]
    rw [if_pos ht]
  · simp only [corruption]
    rw [if_pos ht, hmask]

/-- C10 witness: two different 1×2 inputs with different noise draws and
scales share the identical `ebm` mask. -/
theorem c10_corruption_mask_shape_only_witness :
    ∃ bx m b2, corruption [[1, 2]] [[5, 6]] "ebm" 1 = some (bx, m) ∧
      corruption [[3, 4]] [[0, 0]] "ebm" 2 = some (b2, m) :=
  c10_corruption_mask_shape_only [[1, 2]] [[3, 4]] [[5, 6]] [[0, 0]] 1 2
    "ebm" (Or.inl rfl) (by decide)

/-- `np.linspace(start, stop, num)` with endpoint inclusion: `num` evenly
spaced values from `start` to `stop`; `[]` for `num = 0` and `[start]` for
`num = 1`, as in NumPy. -/
def linspace (start stop : ℚ) (num : ℕ) : List ℚ :=
  if num = 0 then []
  else if num = 1 then [start]
  else (List.range num).map
    (fun i => start + i * ((stop - start) / ((num : ℚ) - 1)))

/-- The `config.model` namespace consumed by `get_sigmas`. -/
structure ModelConfig where
  sigma_dist : String
  sigma_begin : ℚ
  sigma_end : ℚ
  num_classes : ℕ

/-- A configuration object exposing `config.model`. -/
structure Config where
  model : ModelConfig

/-- Embedding of `get_sigmas` (utils.py lines 183-196): geometric
(`exp(linspace(log begin, log end, n))`) or uniform
(`linspace(begin, end, n)`) sigma sequences, `NotImplementedError`
(modelled as `Except.error`) otherwise.  The transcendental `np.exp` and
`np.log` of the geometric branch are abstracted as the function parameters
`expf` and `logf`; the uniform branch does not use them. -/
def get_sigmas (expf logf : ℚ → ℚ) (config : Config) : Except String (List ℚ) :=
  if config.model.sigma_dist = "geometric" then
    Except.ok ((linspace (logf config.model.sigma_begin)
      (logf config.model.sigma_end) config.model.num_classes).map expf)
  else if config.model.sigma_dist = "uniform" then
    Except.ok (linspace config.model.sigma_begin config.model.sigma_end
      config.model.num_classes)
  else
    Except.error "sigma distribution not supported"

/-- C9: `get_sigmas` with kind `uniform`, begin `1`, end `10`, count `10`
returns exactly the ten values `1, 2, ..., 10` — starting at `1`, ending at
`10` inclusive, with all consecutive differences equal to `1`. -/
theorem c9_get_sigmas_uniform (expf logf : ℚ → ℚ) :
    get_sigmas expf logf ⟨⟨"uniform", 1, 10, 10⟩⟩ =
      Except.ok [1, 2, 3, 4, 5, 6, 7, 8, 9, 10] ∧
    List.Chain' (fun a b => b - a = (1:ℚ)) [1, 2, 3, 4, 5, 6, 7, 8, 9, 10] := by
  constructor
  · show (if ("uniform" : String) = "geometric" then _ else _) = _
    rw [if_neg (by decide), if_pos rfl]
    norm_num [linspace, List.range_succ]
  · norm_num [List.chain'_cons]

end NCSN
